import Mathlib

/-!
Verification of `localboot/grub.go` (systemboot): the GRUB config parser
`ParseGrubCfg`, the helper `unquote`, and the scanner `ScanGrubConfigs`.

The Go code is shallowly embedded: strings stay `String`, Go slices become
`List`, the mutable loop state of `ParseGrubCfg` becomes an explicit state
record threaded through a fold over the lines of the input, and the
filesystem read used by `ScanGrubConfigs` becomes an explicit function
`String → Option String` (`none` models a failed `ioutil.ReadFile`).
-/

namespace SystemBoot

/-! ## Go string primitives used by grub.go -/

/-- Go `unicode.IsSpace`: the White_Space code points (ASCII whitespace,
NEL, NBSP and the Unicode space separators). -/
def isGoSpace (c : Char) : Bool :=
  c = ' ' || c = '\t' || c = '\n' || c = Char.ofNat 11 || c = Char.ofNat 12 ||
  c = '\r' || c = Char.ofNat 0x85 || c = Char.ofNat 0xA0 ||
  c = Char.ofNat 0x1680 ||
  (Char.ofNat 0x2000 ≤ c && c ≤ Char.ofNat 0x200A) ||
  c = Char.ofNat 0x2028 || c = Char.ofNat 0x2029 ||
  c = Char.ofNat 0x202F || c = Char.ofNat 0x205F || c = Char.ofNat 0x3000

/-- Go `strings.Split(s, "\n")`: split at each newline, keeping empty
pieces; the empty string yields `[""]`. `acc` holds the (reversed) chars
of the piece being accumulated. -/
def splitOnNlAux : List Char → List Char → List String
  | [], acc => [String.mk acc.reverse]
  | c :: cs, acc =>
    if c = '\n' then String.mk acc.reverse :: splitOnNlAux cs []
    else splitOnNlAux cs (c :: acc)

def splitOnNl (s : String) : List String :=
  splitOnNlAux s.toList []

/-- Go `strings.TrimLeft(line, " ")`: drop leading space characters
(only `' '`, not tabs). -/
def trimLeftSpaces (s : String) : String :=
  String.mk (s.toList.dropWhile (fun c => c = ' '))

/-- Go `strings.Fields`: split around runs of whitespace, dropping empty
fields. `acc` holds the (reversed) chars of the field being accumulated. -/
def fieldsAux : List Char → List Char → List String
  | [], acc => if acc.isEmpty then [] else [String.mk acc.reverse]
  | c :: cs, acc =>
    if isGoSpace c then
      if acc.isEmpty then fieldsAux cs [] else String.mk acc.reverse :: fieldsAux cs []
    else fieldsAux cs (c :: acc)

def fields (s : String) : List String :=
  fieldsAux s.toList []

/-- Go `strings.Join(l, " ")`. -/
def joinSpace (l : List String) : String :=
  String.intercalate " " l

/-! ## Go `path.Clean` and `path.Join` -/

/-- Element processing loop of Go `path.Clean`, on the path's
slash-separated elements. `stack` is the output (most recent element
first). Empty and `"."` elements are dropped; `".."` pops a real element,
and is itself kept only for non-rooted paths with nothing to pop. -/
def cleanAux (rooted : Bool) : List String → List String → List String
  | stack, [] => stack
  | stack, e :: rest =>
    if e = "" || e = "." then cleanAux rooted stack rest
    else if e = ".." then
      match stack with
      | [] => if rooted then cleanAux rooted [] rest else cleanAux rooted [".."] rest
      | top :: tl =>
        if top = ".." then cleanAux rooted (".." :: top :: tl) rest
        else cleanAux rooted tl rest
    else cleanAux rooted (e :: stack) rest

/-- Go `strings.Split(s, "/")`, used to feed `cleanAux`. -/
def splitOnSlashAux : List Char → List Char → List String
  | [], acc => [String.mk acc.reverse]
  | c :: cs, acc =>
    if c = '/' then String.mk acc.reverse :: splitOnSlashAux cs []
    else splitOnSlashAux cs (c :: acc)

def splitOnSlash (s : String) : List String :=
  splitOnSlashAux s.toList []

/-- Go `path.Clean`: purely lexical cleaning of a slash-separated path,
via the element stack of `cleanAux`. A rooted result keeps its leading
slash; an empty result becomes `"."`. -/
def pathClean (p : String) : String :=
  if p = "" then "."
  else
    let rooted := p.toList.head? = some '/'
    let elems := (cleanAux rooted [] (splitOnSlash p)).reverse
    let out := String.intercalate "/" elems
    if rooted then
      if out = "" then "/" else "/" ++ out
    else
      if out = "" then "." else out

/-- Go `path.Join(a, b)`: concatenate with a slash and clean; the result
is `""` only when both arguments are empty. -/
def pathJoin (a b : String) : String :=
  if a = "" && b = "" then ""
  else if a = "" then pathClean b
  else pathClean (a ++ "/" ++ b)

/-- Go `strings.Replace(text, "\\$", "$", -1)`: replace every
(left-to-right, non-overlapping) occurrence of the two-character
sequence backslash-dollar with a single dollar sign. -/
def replaceBackslashDollar : List Char → List Char
  | [] => []
  | [c] => [c]
  | c1 :: c2 :: rest =>
    if c1 = '\\' && c2 = '$' then '$' :: replaceBackslashDollar rest
    else c1 :: replaceBackslashDollar (c2 :: rest)

/-! ## Data model -/

/-- `bootconfig.BootConfig` (package `pkg/bootconfig`, external to
grub.go): the fields grub.go populates. Go zero values: empty strings
and a nil slice. -/
structure BootConfig where
  Name : String := ""
  Kernel : String := ""
  KernelArgs : String := ""
  Initramfs : String := ""
  Multiboot : String := ""
  MultibootArgs : String := ""
  Modules : List String := []
deriving Repr, DecidableEq

/-- Modelled from the spec: `BootConfig.IsValid` lives in the external
`pkg/bootconfig` package, whose source is not part of this repository
slice. The spec states that "validity requires at least one of a kernel
path or equivalent boot target to be set", the equivalent boot target
being the multiboot image. -/
def BootConfig.IsValid (bc : BootConfig) : Bool :=
  bc.Kernel ≠ "" || bc.Multiboot ≠ ""

/-- Go `grubVersion` is an integer type; `grubV1 = 1`, `grubV2 = 2`. -/
abbrev grubVersion := Int

def grubV1 : grubVersion := 1

def grubV2 : grubVersion := 2

/-- `unquote(ver, text)`: under grub2 replace every `\$` with `$`,
otherwise return the unmodified string. -/
def unquote (ver : grubVersion) (text : String) : String :=
  if ver = grubV2 then String.mk (replaceBackslashDollar text.toList)
  else text

/-! ## ParseGrubCfg -/

/-- The mutable state of `ParseGrubCfg`'s line loop: the accumulated
`bootconfigs` slice, the `inMenuEntry` flag, and the nullable current
config pointer `cfg`. In the Go code `cfg` is non-nil exactly when
`inMenuEntry` is true (both are set only in the `menuentry` branch). -/
structure ParseState where
  bootconfigs : List BootConfig
  inMenuEntry : Bool
  cfg : Option BootConfig
deriving Repr, DecidableEq

/-- The directive dispatch of `ParseGrubCfg` for a line seen while
`inMenuEntry`, on the line's fields `sline`: lines with fewer than two
tokens, and unrecognized keywords, leave the config unchanged. -/
def applyDirective (ver : grubVersion) (basedir : String) (c : BootConfig) :
    List String → BootConfig
  | tok0 :: arg1 :: args =>
    if tok0 = "linux" || tok0 = "linux16" || tok0 = "linuxefi" then
      let cmdline := unquote ver (joinSpace args)
      { c with Kernel := pathJoin basedir arg1, KernelArgs := cmdline }
    else if tok0 = "initrd" || tok0 = "initrd16" || tok0 = "initrdefi" then
      { c with Initramfs := pathJoin basedir arg1 }
    else if tok0 = "multiboot" then
      let cmdline := unquote ver (joinSpace args)
      { c with Multiboot := pathJoin basedir arg1, MultibootArgs := cmdline }
    else if tok0 = "module" then
      let cmdline := joinSpace args
      let cmdline := if ver = grubV2 then
          String.mk (replaceBackslashDollar cmdline.toList) else cmdline
      let m := pathJoin basedir arg1
      let m := if cmdline ≠ "" then m ++ " " ++ cmdline else m
      { c with Modules := c.Modules ++ [m] }
    else c
  | _ => c

/-- One iteration of `ParseGrubCfg`'s `for _, line := range lines` loop. -/
def processLine (ver : grubVersion) (basedir : String) (st : ParseState)
    (rawLine : String) : ParseState :=
  let line := trimLeftSpaces rawLine
  let sline := fields line
  match sline with
  | [] => st
  | tok0 :: rest =>
    if tok0 = "menuentry" then
      let bcs := match st.cfg with
        | some c => if c.IsValid then st.bootconfigs ++ [c] else st.bootconfigs
        | none => st.bootconfigs
      { bootconfigs := bcs, inMenuEntry := true,
        cfg := some { Name := joinSpace rest } }
    else if st.inMenuEntry then
      match st.cfg with
      | some c => { st with cfg := some (applyDirective ver basedir c sline) }
      | none => st
    else st

/-- The state of `ParseGrubCfg` before the first line is processed. -/
def initState : ParseState :=
  { bootconfigs := [], inMenuEntry := false, cfg := none }

/-- The code after `ParseGrubCfg`'s loop: "append last kernel config if
it wasn't already" — flush the pending config if it is valid. -/
def finalizeState (st : ParseState) : List BootConfig :=
  if st.inMenuEntry then
    match st.cfg with
    | some c => if c.IsValid then st.bootconfigs ++ [c] else st.bootconfigs
    | none => st.bootconfigs
  else st.bootconfigs

/-- `ParseGrubCfg(ver, grubcfg, basedir)`: reject invalid versions, run
the line loop over the newline-split input, then flush the last pending
config. -/
def ParseGrubCfg (ver : grubVersion) (grubcfg : String) (basedir : String) :
    List BootConfig :=
  if ver ≠ grubV1 && ver ≠ grubV2 then []
  else finalizeState ((splitOnNl grubcfg).foldl (processLine ver basedir) initState)

/-! ## ScanGrubConfigs -/

/-- Candidate relative paths for grub2-style config files. -/
def Grub2Paths : List String :=
  ["boot/grub2/grub.cfg", "boot/grub2.cfg", "grub2/grub.cfg", "grub2.cfg"]

/-- Candidate relative paths for grub-legacy-style config files. -/
def GrubLegacyPaths : List String :=
  ["boot/grub/grub.cfg", "boot/grub.cfg", "grub/grub.cfg", "grub.cfg"]

/-- One of the two scanning loops of `ScanGrubConfigs`: for each
candidate path, try to read the file (`fs` models `ioutil.ReadFile`:
`none` is a read error, which is logged and skipped); on success the
content is measured (a side effect with no influence on the result) and
parsed with the given version, and the entries are appended. -/
def scanLoop (fs : String → Option String) (basedir : String)
    (ver : grubVersion) (paths : List String) (acc : List BootConfig) :
    List BootConfig :=
  paths.foldl (fun bcs grubpath =>
    match fs (pathJoin basedir grubpath) with
    | none => bcs
    | some grubcfg => bcs ++ ParseGrubCfg ver grubcfg basedir) acc

/-- `ScanGrubConfigs(basedir)` over an explicit filesystem `fs`: scan the
grub2 candidates with version 2, then the legacy candidates with
version 1. -/
def ScanGrubConfigs (fs : String → Option String) (basedir : String) :
    List BootConfig :=
  scanLoop fs basedir grubV1 GrubLegacyPaths
    (scanLoop fs basedir grubV2 Grub2Paths [])

/-! ## Basic lemmas -/

lemma parseGrubCfg_invalid (ver : grubVersion) (h1 : ver ≠ grubV1)
    (h2 : ver ≠ grubV2) (grubcfg basedir : String) :
    ParseGrubCfg ver grubcfg basedir = [] := by
  simp [ParseGrubCfg, h1, h2]

lemma parseGrubCfg_valid (ver : grubVersion) (h : ver = grubV1 ∨ ver = grubV2)
    (grubcfg basedir : String) :
    ParseGrubCfg ver grubcfg basedir =
      finalizeState ((splitOnNl grubcfg).foldl (processLine ver basedir) initState) := by
  rcases h with rfl | rfl <;> rfl

lemma processLine_of_fields_nil (ver : grubVersion) (basedir : String)
    (st : ParseState) (rawLine : String)
    (h : fields (trimLeftSpaces rawLine) = []) :
    processLine ver basedir st rawLine = st := by
  simp [processLine, h]

lemma fieldsAux_nil_of_space (l : List Char) (h : ∀ c ∈ l, isGoSpace c = true) :
    fieldsAux l [] = [] := by
  induction l with
  | nil => rfl
  | cons c cs ih =>
    have hc : isGoSpace c = true := h c (by simp)
    simp only [fieldsAux, hc, if_true, List.isEmpty_nil]
    exact ih (fun x hx => h x (by simp [hx]))

lemma trimLeftSpaces_subset (s : String) :
    ∀ c ∈ (trimLeftSpaces s).toList, c ∈ s.toList := by
  intro c hc
  have : (trimLeftSpaces s).toList = s.toList.dropWhile (fun c => c = ' ') := rfl
  rw [this] at hc
  exact (List.dropWhile_sublist _).subset hc

lemma fields_nil_of_space (s : String) (h : ∀ c ∈ s.toList, isGoSpace c = true) :
    fields (trimLeftSpaces s) = [] :=
  fieldsAux_nil_of_space _ (fun c hc => h c (trimLeftSpaces_subset s c hc))

lemma splitOnNlAux_space (P : Char → Prop) (l acc : List Char)
    (hl : ∀ c ∈ l, P c) (hacc : ∀ c ∈ acc, P c) :
    ∀ s ∈ splitOnNlAux l acc, ∀ c ∈ s.toList, P c := by
  induction l generalizing acc with
  | nil =>
    intro s hs c hc
    simp only [splitOnNlAux, List.mem_singleton] at hs
    subst hs
    exact hacc c (List.mem_reverse.mp hc)
  | cons ch cs ih =>
    intro s hs c hc
    have hl' : ∀ c ∈ cs, P c := fun x hx => hl x (List.mem_cons_of_mem _ hx)
    by_cases hch : ch = '\n'
    · rw [splitOnNlAux, if_pos hch] at hs
      rcases List.mem_cons.mp hs with rfl | hs
      · exact hacc c (List.mem_reverse.mp hc)
      · exact ih [] hl' (by simp) s hs c hc
    · rw [splitOnNlAux, if_neg hch] at hs
      refine ih (ch :: acc) hl' ?_ s hs c hc
      intro x hx
      rcases List.mem_cons.mp hx with rfl | hx
      · exact hl x (List.mem_cons_self _ _)
      · exact hacc x hx

lemma foldl_processLine_space (ver : grubVersion) (basedir : String)
    (lines : List String) (st : ParseState)
    (h : ∀ l ∈ lines, fields (trimLeftSpaces l) = []) :
    lines.foldl (processLine ver basedir) st = st := by
  induction lines generalizing st with
  | nil => rfl
  | cons l ls ih =>
    rw [List.foldl_cons, processLine_of_fields_nil ver basedir st l (h l (by simp))]
    exact ih st (fun x hx => h x (by simp [hx]))

/-! ## C5 and C10 -/

/-- C5: for every dialect value outside the two valid enumeration
values, and every input text and base directory, `ParseGrubCfg` returns
the empty list (the Go code logs a warning and returns `nil`; no panic
is possible, the embedded function is total). -/
theorem C5_invalid_dialect (ver : grubVersion) (h1 : ver ≠ grubV1)
    (h2 : ver ≠ grubV2) (grubcfg basedir : String) :
    ParseGrubCfg ver grubcfg basedir = [] :=
  parseGrubCfg_invalid ver h1 h2 grubcfg basedir

theorem C5_witness : ParseGrubCfg 3 "menuentry A\nlinux /vmlinuz" "/mnt" = [] :=
  C5_invalid_dialect 3 (by decide) (by decide) _ _

/-- C10: for every valid dialect and every base directory,
`ParseGrubCfg` on the empty string, or on text made only of whitespace
(including newlines), returns the empty list. -/
theorem C10_whitespace_only (ver : grubVersion) (basedir : String)
    (hver : ver = grubV1 ∨ ver = grubV2) :
    ParseGrubCfg ver "" basedir = [] ∧
    ∀ text : String, (∀ c ∈ text.toList, isGoSpace c = true) →
      ParseGrubCfg ver text basedir = [] := by
  have main : ∀ text : String, (∀ c ∈ text.toList, isGoSpace c = true) →
      ParseGrubCfg ver text basedir = [] := by
    intro text h
    rw [parseGrubCfg_valid ver hver]
    have hlines : ∀ l ∈ splitOnNl text, fields (trimLeftSpaces l) = [] := by
      intro l hl
      refine fields_nil_of_space l ?_
      intro c hc
      exact splitOnNlAux_space (fun c => isGoSpace c = true) text.toList [] h
        (by simp) l hl c hc
    rw [foldl_processLine_space ver basedir _ _ hlines]
    rfl
  exact ⟨main "" (by simp), main⟩

theorem C10_witness : ParseGrubCfg grubV1 "  \n\t \n" "/mnt" = [] :=
  (C10_whitespace_only grubV1 "/mnt" (Or.inl rfl)).2 "  \n\t \n" (by decide)

/-! ## C1 -/

/-- C1 (counterexample): the three-line config of the claim does not
yield an entry named `X`; the parser takes the `menuentry` line's
trailing tokens verbatim, so the name keeps its double quotes. -/
theorem C1_counterexample :
    (ParseGrubCfg grubV2
      "menuentry \"X\"\nlinux /vmlinuz root=/dev/sda1\ninitrd /initrd.img"
      "/mnt").map BootConfig.Name ≠ ["X"] := by decide

/-- C1 (amended): for any valid dialect, the three-line config yields
exactly one entry with `Name = "\"X\""` (the quotes are kept verbatim),
`Kernel = "/mnt/vmlinuz"`, `KernelArgs = "root=/dev/sda1"` and
`Initramfs = "/mnt/initrd.img"`. -/
theorem C1_basic_entry (ver : grubVersion)
    (hver : ver = grubV1 ∨ ver = grubV2) :
    ParseGrubCfg ver
      "menuentry \"X\"\nlinux /vmlinuz root=/dev/sda1\ninitrd /initrd.img"
      "/mnt" =
      [{ Name := "\"X\"", Kernel := "/mnt/vmlinuz",
         KernelArgs := "root=/dev/sda1", Initramfs := "/mnt/initrd.img",
         Multiboot := "", MultibootArgs := "", Modules := [] }] := by
  rcases hver with rfl | rfl <;> decide

theorem C1_witness :
    ParseGrubCfg grubV2
      "menuentry \"X\"\nlinux /vmlinuz root=/dev/sda1\ninitrd /initrd.img"
      "/mnt" =
      [{ Name := "\"X\"", Kernel := "/mnt/vmlinuz",
         KernelArgs := "root=/dev/sda1", Initramfs := "/mnt/initrd.img",
         Multiboot := "", MultibootArgs := "", Modules := [] }] :=
  C1_basic_entry grubV2 (Or.inr rfl)

/-! ## C2: only valid entries are emitted -/

lemma processLine_valid_invariant (ver : grubVersion) (basedir : String)
    (st : ParseState) (l : String)
    (h : ∀ bc ∈ st.bootconfigs, bc.IsValid = true) :
    ∀ bc ∈ (processLine ver basedir st l).bootconfigs, bc.IsValid = true := by
  intro bc hbc
  unfold processLine at hbc
  rcases hsl : fields (trimLeftSpaces l) with _ | ⟨tok0, rest⟩ <;>
    simp only [hsl] at hbc
  · exact h bc hbc
  · split_ifs at hbc with hme hin
    · rcases hcfg : st.cfg with _ | c <;> simp only [hcfg] at hbc
      · exact h bc hbc
      · split_ifs at hbc with hv
        · rcases List.mem_append.mp hbc with hbc | hbc
          · exact h bc hbc
          · rw [List.mem_singleton.mp hbc]; exact hv
        · exact h bc hbc
    · rcases hcfg : st.cfg with _ | c <;> simp only [hcfg] at hbc
      · exact h bc hbc
      · exact h bc hbc
    · exact h bc hbc

lemma foldl_valid_invariant (ver : grubVersion) (basedir : String)
    (lines : List String) (st : ParseState)
    (h : ∀ bc ∈ st.bootconfigs, bc.IsValid = true) :
    ∀ bc ∈ (lines.foldl (processLine ver basedir) st).bootconfigs,
      bc.IsValid = true := by
  induction lines generalizing st with
  | nil => exact h
  | cons l ls ih =>
    rw [List.foldl_cons]
    exact ih _ (processLine_valid_invariant ver basedir st l h)

lemma finalizeState_valid (st : ParseState)
    (h : ∀ bc ∈ st.bootconfigs, bc.IsValid = true) :
    ∀ bc ∈ finalizeState st, bc.IsValid = true := by
  intro bc hbc
  unfold finalizeState at hbc
  split_ifs at hbc
  · rcases hcfg : st.cfg with _ | c <;> simp only [hcfg] at hbc
    · exact h bc hbc
    · split_ifs at hbc with hv
      · rcases List.mem_append.mp hbc with hbc | hbc
        · exact h bc hbc
        · rw [List.mem_singleton.mp hbc]; exact hv
      · exact h bc hbc
  · exact h bc hbc

/-- C2: every entry returned by `ParseGrubCfg` satisfies the validity
predicate; a pending entry is tested when the next `menuentry` line is
seen and at end of input, and an invalid pending entry (for example a
`menuentry` with no directive after it) is silently dropped. -/
theorem C2_only_valid_entries :
    (∀ (ver : grubVersion) (grubcfg basedir : String),
       ∀ bc ∈ ParseGrubCfg ver grubcfg basedir, bc.IsValid = true) ∧
    ParseGrubCfg grubV2 "menuentry broken\nmenuentry B\nlinux /k" "/mnt" =
      [{ Name := "B", Kernel := "/mnt/k" }] ∧
    ParseGrubCfg grubV2 "menuentry broken" "/mnt" = [] := by
  refine ⟨?_, by decide, by decide⟩
  intro ver grubcfg basedir bc hbc
  unfold ParseGrubCfg at hbc
  split_ifs at hbc
  · exact absurd hbc (List.not_mem_nil bc)
  · exact finalizeState_valid _
      (foldl_valid_invariant ver basedir _ initState (by simp [initState])) bc hbc

theorem C2_witness :
    BootConfig.IsValid { Name := "B", Kernel := "/mnt/k" } = true :=
  C2_only_valid_entries.1 grubV2 "menuentry B\nlinux /k" "/mnt"
    { Name := "B", Kernel := "/mnt/k" } (by decide)

/-! ## C3: the unescaping rule

For the refinement statement, two definitions follow the spec's words:
`specSplitOnEscape` cuts a string at the (left-to-right,
non-overlapping) occurrences of the two-character sequence
backslash-dollar, and `hasEscape` tests whether such an occurrence is
present at all. -/

/-- The segments of a string between successive occurrences of the
escape sequence backslash-dollar (spec-side definition). -/
def specSplitOnEscape : List Char → List (List Char)
  | [] => [[]]
  | [c] => [[c]]
  | c1 :: c2 :: rest =>
    if c1 = '\\' && c2 = '$' then [] :: specSplitOnEscape rest
    else
      match specSplitOnEscape (c2 :: rest) with
      | [] => [[c1]]
      | h :: t => (c1 :: h) :: t

/-- Rejoin segments with a single dollar sign between them
(spec-side definition). -/
def joinWithDollar : List (List Char) → List Char
  | [] => []
  | [x] => x
  | x :: y :: t => x ++ '$' :: joinWithDollar (y :: t)

/-- Whether the escape sequence backslash-dollar occurs in the string
(spec-side definition). -/
def hasEscape : List Char → Bool
  | [] => false
  | [_] => false
  | c1 :: c2 :: rest =>
    if c1 = '\\' && c2 = '$' then true else hasEscape (c2 :: rest)

lemma specSplitOnEscape_ne_nil (l : List Char) : specSplitOnEscape l ≠ [] := by
  induction l using replaceBackslashDollar.induct with
  | case1 => simp [specSplitOnEscape]
  | case2 c => simp [specSplitOnEscape]
  | case3 c1 c2 rest h ih => simp [specSplitOnEscape, h]
  | case4 c1 c2 rest h ih =>
    rw [specSplitOnEscape, if_neg h]
    rcases hspec : specSplitOnEscape (c2 :: rest) with _ | ⟨x, t⟩ <;> simp

lemma joinWithDollar_cons_cons (c : Char) (h : List Char) (t : List (List Char)) :
    joinWithDollar ((c :: h) :: t) = c :: joinWithDollar (h :: t) := by
  cases t with
  | nil => rfl
  | cons y t => simp [joinWithDollar]

lemma replaceBackslashDollar_eq_join (l : List Char) :
    replaceBackslashDollar l = joinWithDollar (specSplitOnEscape l) := by
  induction l using replaceBackslashDollar.induct with
  | case1 => rfl
  | case2 c => rfl
  | case3 c1 c2 rest h ih =>
    rw [replaceBackslashDollar, if_pos h, specSplitOnEscape, if_pos h, ih]
    rcases hspec : specSplitOnEscape rest with _ | ⟨x, t⟩
    · exact absurd hspec (specSplitOnEscape_ne_nil rest)
    · simp [joinWithDollar]
  | case4 c1 c2 rest h ih =>
    rw [replaceBackslashDollar, if_neg h, specSplitOnEscape, if_neg h, ih]
    rcases hspec : specSplitOnEscape (c2 :: rest) with _ | ⟨x, t⟩
    · exact absurd hspec (specSplitOnEscape_ne_nil (c2 :: rest))
    · exact (joinWithDollar_cons_cons c1 x t).symm

lemma specSplitOnEscape_head (l : List Char) (h : List Char)
    (t : List (List Char)) (hspec : specSplitOnEscape l = h :: t) :
    h = [] ∨ h.head? = l.head? := by
  match l with
  | [] =>
    simp only [specSplitOnEscape] at hspec
    exact Or.inl (List.cons.inj hspec).1.symm
  | [c] =>
    simp only [specSplitOnEscape] at hspec
    rw [← (List.cons.inj hspec).1]
    exact Or.inr rfl
  | c1 :: c2 :: rest =>
    rw [specSplitOnEscape] at hspec
    split_ifs at hspec with hesc
    · exact Or.inl (List.cons.inj hspec).1.symm
    · rcases hs : specSplitOnEscape (c2 :: rest) with _ | ⟨x, t'⟩
      · exact absurd hs (specSplitOnEscape_ne_nil (c2 :: rest))
      · rw [hs] at hspec
        rw [← (List.cons.inj hspec).1]
        exact Or.inr rfl

lemma hasEscape_segments (l : List Char) :
    ∀ seg ∈ specSplitOnEscape l, hasEscape seg = false := by
  induction l using replaceBackslashDollar.induct with
  | case1 =>
    intro seg hseg
    simp only [specSplitOnEscape, List.mem_singleton] at hseg
    simp [hseg, hasEscape]
  | case2 c =>
    intro seg hseg
    simp only [specSplitOnEscape, List.mem_singleton] at hseg
    simp [hseg, hasEscape]
  | case3 c1 c2 rest h ih =>
    intro seg hseg
    rw [specSplitOnEscape, if_pos h] at hseg
    rcases List.mem_cons.mp hseg with rfl | hseg
    · rfl
    · exact ih seg hseg
  | case4 c1 c2 rest h ih =>
    intro seg hseg
    rw [specSplitOnEscape, if_neg h] at hseg
    rcases hs : specSplitOnEscape (c2 :: rest) with _ | ⟨x, t⟩
    · exact absurd hs (specSplitOnEscape_ne_nil (c2 :: rest))
    · rw [hs] at hseg
      rcases List.mem_cons.mp hseg with rfl | hseg
      · rcases specSplitOnEscape_head (c2 :: rest) x t hs with rfl | hx
        · simp [hasEscape]
        · have hx2 : hasEscape x = false := ih x (by simp [hs])
          cases x with
          | nil => simp [hasEscape]
          | cons x0 xs =>
            simp only [List.head?_cons, Option.some.injEq] at hx
            subst hx
            rw [hasEscape, if_neg h]
            exact hx2
      · exact ih seg (by simp [hs, hseg])

lemma replaceBackslashDollar_of_no_escape (l : List Char)
    (h : hasEscape l = false) : replaceBackslashDollar l = l := by
  induction l using replaceBackslashDollar.induct with
  | case1 => rfl
  | case2 c => rfl
  | case3 c1 c2 rest hg ih =>
    rw [hasEscape, if_pos hg] at h
    exact absurd h (by simp)
  | case4 c1 c2 rest hg ih =>
    rw [hasEscape, if_neg hg] at h
    rw [replaceBackslashDollar, if_neg hg, ih h]

lemma applyDirective_module (ver : grubVersion) (basedir : String)
    (c : BootConfig) (p : String) (args : List String) :
    applyDirective ver basedir c ("module" :: p :: args) =
      { c with Modules := c.Modules ++
          [if unquote ver (joinSpace args) ≠ ""
           then pathJoin basedir p ++ " " ++ unquote ver (joinSpace args)
           else pathJoin basedir p] } := by
  by_cases hver : ver = grubV2 <;> simp [applyDirective, unquote, hver]

/-- C3: under the legacy dialect `unquote` returns its argument
unmodified; under the v2 dialect the replacement is exactly "cut the
string at every occurrence of backslash-dollar and rejoin the pieces
with single dollar signs", the pieces themselves containing no escape
(so a string with no occurrence — in particular one with any other
escape sequence — is unchanged); the module trailing-args string gets
the identical `unquote` transformation inside the `module` branch; and
the spec's concrete example holds. -/
theorem C3_unescaping :
    (∀ s : String, unquote grubV1 s = s) ∧
    (∀ l : List Char,
       replaceBackslashDollar l = joinWithDollar (specSplitOnEscape l)) ∧
    (∀ l : List Char, ∀ seg ∈ specSplitOnEscape l, hasEscape seg = false) ∧
    (∀ s : String, hasEscape s.toList = false → unquote grubV2 s = s) ∧
    (∀ (ver : grubVersion) (basedir : String) (c : BootConfig) (p : String)
       (args : List String),
       applyDirective ver basedir c ("module" :: p :: args) =
         { c with Modules := c.Modules ++
             [if unquote ver (joinSpace args) ≠ ""
              then pathJoin basedir p ++ " " ++ unquote ver (joinSpace args)
              else pathJoin basedir p] }) ∧
    unquote grubV2 "\\$foo" = "$foo" ∧ unquote grubV1 "\\$foo" = "\\$foo" := by
  refine ⟨fun s => rfl, replaceBackslashDollar_eq_join, hasEscape_segments,
    ?_, applyDirective_module, by decide, rfl⟩
  intro s h
  show String.mk (replaceBackslashDollar s.toList) = s
  rw [replaceBackslashDollar_of_no_escape s.toList h]
  rcases s with ⟨l⟩
  rfl

theorem C3_witness : unquote grubV2 "root=/dev/sda1 quiet" = "root=/dev/sda1 quiet" :=
  C3_unescaping.2.2.2.1 "root=/dev/sda1 quiet" (by decide)

/-! ## C4: module directive lines -/

/-- C4: inside an entry, each `module` line appends to `Modules` exactly
one string: the module path joined with the base directory, followed by
a single space and the (dialect-unescaped) trailing-argument string
when that string is non-empty; successive `module` lines append in
source order, as in the spec's two-line example. -/
theorem C4_module_lines :
    (∀ (ver : grubVersion) (basedir : String) (bcs : List BootConfig)
       (c : BootConfig) (line p : String) (args : List String),
       fields (trimLeftSpaces line) = "module" :: p :: args →
       processLine ver basedir ⟨bcs, true, some c⟩ line =
         ⟨bcs, true, some { c with Modules := c.Modules ++
            [if unquote ver (joinSpace args) ≠ ""
             then pathJoin basedir p ++ " " ++ unquote ver (joinSpace args)
             else pathJoin basedir p] }⟩) ∧
    (ParseGrubCfg grubV2
      "menuentry A\nmultiboot /mb\nmodule /a.ko arg1\nmodule /b.ko"
      "/mnt").map BootConfig.Modules = [["/mnt/a.ko arg1", "/mnt/b.ko"]] := by
  refine ⟨?_, by decide⟩
  intro ver basedir bcs c line p args h
  simp [processLine, h, applyDirective_module]

theorem C4_witness :
    processLine grubV2 "/mnt" ⟨[], true, some { Name := "A" }⟩ "module /a.ko arg1" =
      ⟨[], true, some { Name := "A", Modules := ["/mnt/a.ko arg1"] }⟩ :=
  C4_module_lines.1 grubV2 "/mnt" [] { Name := "A" } "module /a.ko arg1"
    "/a.ko" ["arg1"] (by decide)

/-! ## C9: later directives overwrite earlier ones -/

/-- C9: within one entry the kernel, initramfs and multiboot directives
set their fields to values that depend only on the current line (so a
later line of the same kind overwrites an earlier one, and the emitted
entry carries the last line's values); a two-token directive has an
empty token remainder, so the args field is set to the empty string. -/
theorem C9_last_directive_wins :
    (∀ (ver : grubVersion) (basedir : String) (c : BootConfig) (tok k : String)
       (args : List String),
       tok = "linux" ∨ tok = "linux16" ∨ tok = "linuxefi" →
       applyDirective ver basedir c (tok :: k :: args) =
         { c with Kernel := pathJoin basedir k,
                  KernelArgs := unquote ver (joinSpace args) }) ∧
    (∀ (ver : grubVersion) (basedir : String) (c : BootConfig) (tok k : String)
       (args : List String),
       tok = "initrd" ∨ tok = "initrd16" ∨ tok = "initrdefi" →
       applyDirective ver basedir c (tok :: k :: args) =
         { c with Initramfs := pathJoin basedir k }) ∧
    (∀ (ver : grubVersion) (basedir : String) (c : BootConfig) (k : String)
       (args : List String),
       applyDirective ver basedir c ("multiboot" :: k :: args) =
         { c with Multiboot := pathJoin basedir k,
                  MultibootArgs := unquote ver (joinSpace args) }) ∧
    joinSpace [] = "" ∧ (∀ ver : grubVersion, unquote ver "" = "") ∧
    (ParseGrubCfg grubV2 "menuentry A\nlinux /k1 a b\nlinux16 /k2" "/mnt").map
        (fun bc => (bc.Kernel, bc.KernelArgs)) = [("/mnt/k2", "")] := by
  refine ⟨?_, ?_, ?_, rfl, ?_, by decide⟩
  · intro ver basedir c tok k args htok
    rcases htok with rfl | rfl | rfl <;> simp [applyDirective]
  · intro ver basedir c tok k args htok
    rcases htok with rfl | rfl | rfl <;> simp [applyDirective]
  · intro ver basedir c k args
    simp [applyDirective]
  · intro ver
    by_cases hver : ver = grubV2
    · subst hver; decide
    · simp [unquote, hver]

theorem C9_witness :
    applyDirective grubV2 "/mnt"
      { Name := "A", Kernel := "/mnt/k1", KernelArgs := "a b" }
      ("linux16" :: "/k2" :: []) =
      { Name := "A", Kernel := "/mnt/k2", KernelArgs := "" } :=
  C9_last_directive_wins.1 grubV2 "/mnt"
    { Name := "A", Kernel := "/mnt/k1", KernelArgs := "a b" }
    "linux16" "/k2" [] (Or.inr (Or.inl rfl))

/-! ## C6 and C7: the scanner -/

/-- What one candidate path contributes to the scan: nothing if the
read fails, the parse of the file's content otherwise. -/
def scanContribution (fs : String → Option String) (basedir : String)
    (ver : grubVersion) (p : String) : List BootConfig :=
  match fs (pathJoin basedir p) with
  | none => []
  | some grubcfg => ParseGrubCfg ver grubcfg basedir

lemma scanLoop_eq (fs : String → Option String) (basedir : String)
    (ver : grubVersion) (paths : List String) (acc : List BootConfig) :
    scanLoop fs basedir ver paths acc =
      acc ++ (paths.map (scanContribution fs basedir ver)).flatten := by
  induction paths generalizing acc with
  | nil => simp [scanLoop]
  | cons p ps ih =>
    have hstep : scanLoop fs basedir ver (p :: ps) acc =
        scanLoop fs basedir ver ps
          (match fs (pathJoin basedir p) with
           | none => acc
           | some grubcfg => acc ++ ParseGrubCfg ver grubcfg basedir) := rfl
    rw [hstep, ih]
    rcases hfs : fs (pathJoin basedir p) with _ | grubcfg <;>
      simp [scanContribution, hfs]

/-- C6: the scanner's result is the concatenation, in candidate-list
order, of the per-file parses: all four grub2 candidates (parsed with
the v2 dialect and the unchanged base directory) before all four legacy
candidates (parsed with the legacy dialect), each file contributing its
entries in parse order. -/
theorem C6_scan_order (fs : String → Option String) (basedir : String) :
    ScanGrubConfigs fs basedir =
      (Grub2Paths.map (scanContribution fs basedir grubV2)).flatten ++
      (GrubLegacyPaths.map (scanContribution fs basedir grubV1)).flatten := by
  unfold ScanGrubConfigs
  rw [scanLoop_eq, scanLoop_eq]
  simp

/-- C7: an unreadable candidate file is skipped and the scan continues
with the remaining candidates; a filesystem with no readable candidate,
or whose readable files all parse to no valid entry, makes the scan
return the empty list rather than an error. -/
theorem C7_read_failures_skipped :
    (∀ (fs : String → Option String) (basedir : String) (ver : grubVersion)
       (front back : List String) (q : String) (acc : List BootConfig),
       fs (pathJoin basedir q) = none →
       scanLoop fs basedir ver (front ++ q :: back) acc =
         scanLoop fs basedir ver (front ++ back) acc) ∧
    (∀ (fs : String → Option String) (basedir : String),
       (∀ p, fs p = none) → ScanGrubConfigs fs basedir = []) ∧
    (∀ (fs : String → Option String) (basedir : String),
       (∀ p c, fs p = some c → ParseGrubCfg grubV2 c basedir = [] ∧
          ParseGrubCfg grubV1 c basedir = []) →
       ScanGrubConfigs fs basedir = []) := by
  refine ⟨?_, ?_, ?_⟩
  · intro fs basedir ver front back q acc hq
    rw [scanLoop_eq, scanLoop_eq]
    simp [scanContribution, hq]
  · intro fs basedir h
    unfold ScanGrubConfigs
    rw [scanLoop_eq, scanLoop_eq]
    simp [scanContribution, h]
  · intro fs basedir h
    unfold ScanGrubConfigs
    rw [scanLoop_eq, scanLoop_eq]
    have hc : ∀ (ver : grubVersion) (hver : ver = grubV1 ∨ ver = grubV2)
        (p : String), scanContribution fs basedir ver p = [] := by
      intro ver hver p
      unfold scanContribution
      rcases hfs : fs (pathJoin basedir p) with _ | c
      · rfl
      · rcases hver with rfl | rfl
        · exact (h _ c hfs).2
        · exact (h _ c hfs).1
    simp [hc grubV2 (Or.inr rfl), hc grubV1 (Or.inl rfl)]

theorem C7_witness : ScanGrubConfigs (fun _ => none) "/mnt" = [] :=
  C7_read_failures_skipped.2.1 (fun _ => none) "/mnt" (fun _ => rfl)

/-! ## C8: blank lines, stray lines and unrecognized directives -/

/-- A line that changes no parser state whatever the current state is:
a blank (whitespace-only) line, a single token other than `menuentry`,
or a multi-token line whose keyword is neither `menuentry` nor one of
the recognized directive keywords. -/
def inertLine (rawLine : String) : Bool :=
  match fields (trimLeftSpaces rawLine) with
  | [] => true
  | [tok0] => tok0 ≠ "menuentry"
  | tok0 :: _ :: _ =>
    tok0 ≠ "menuentry" && tok0 ≠ "linux" && tok0 ≠ "linux16" &&
    tok0 ≠ "linuxefi" && tok0 ≠ "initrd" && tok0 ≠ "initrd16" &&
    tok0 ≠ "initrdefi" && tok0 ≠ "multiboot" && tok0 ≠ "module"

/-- A line that does not open a menu entry. -/
def notMenuentryLine (rawLine : String) : Bool :=
  match fields (trimLeftSpaces rawLine) with
  | [] => true
  | tok0 :: _ => tok0 ≠ "menuentry"

lemma processLine_inert (ver : grubVersion) (basedir : String)
    (st : ParseState) (l : String) (h : inertLine l = true) :
    processLine ver basedir st l = st := by
  unfold inertLine at h
  rcases st with ⟨bcs, inme, cfg⟩
  rcases hsl : fields (trimLeftSpaces l) with _ | ⟨tok0, rest⟩
  · simp [processLine, hsl]
  · rw [hsl] at h
    rcases rest with _ | ⟨a, rest'⟩
    · have hme : ¬ tok0 = "menuentry" := by simpa using h
      simp only [processLine, hsl]
      rw [if_neg hme]
      cases inme
      · rfl
      · rcases cfg with _ | c <;> rfl
    · simp only [Bool.and_eq_true, ne_eq, decide_eq_true_eq] at h
      obtain ⟨⟨⟨⟨⟨⟨⟨⟨hme, h1⟩, h2⟩, h3⟩, h4⟩, h5⟩, h6⟩, h7⟩, h8⟩ := h
      simp only [processLine, hsl]
      rw [if_neg hme]
      cases inme
      · rfl
      · rcases cfg with _ | c
        · rfl
        · have happ : applyDirective ver basedir c (tok0 :: a :: rest') = c := by
            simp only [applyDirective]
            rw [if_neg (by simp [h1, h2, h3]), if_neg (by simp [h4, h5, h6]),
              if_neg (by simp [h7]), if_neg (by simp [h8])]
          simp [happ]

lemma processLine_outside (ver : grubVersion) (basedir : String)
    (bcs : List BootConfig) (cfg : Option BootConfig) (l : String)
    (h : notMenuentryLine l = true) :
    processLine ver basedir ⟨bcs, false, cfg⟩ l = ⟨bcs, false, cfg⟩ := by
  unfold notMenuentryLine at h
  rcases hsl : fields (trimLeftSpaces l) with _ | ⟨tok0, rest⟩
  · simp [processLine, hsl]
  · rw [hsl] at h
    have hme : ¬ tok0 = "menuentry" := by simpa using h
    simp only [processLine, hsl]
    rw [if_neg hme]
    rfl

lemma foldl_outside (ver : grubVersion) (basedir : String)
    (front : List String) (bcs : List BootConfig) (cfg : Option BootConfig)
    (h : ∀ l ∈ front, notMenuentryLine l = true) :
    front.foldl (processLine ver basedir) ⟨bcs, false, cfg⟩ =
      ⟨bcs, false, cfg⟩ := by
  induction front with
  | nil => rfl
  | cons l ls ih =>
    rw [List.foldl_cons, processLine_outside ver basedir bcs cfg l (h l (by simp))]
    exact ih (fun x hx => h x (by simp [hx]))

lemma foldl_filter_inert (ver : grubVersion) (basedir : String)
    (lines : List String) (st : ParseState) :
    (lines.filter (fun l => !inertLine l)).foldl (processLine ver basedir) st =
      lines.foldl (processLine ver basedir) st := by
  induction lines generalizing st with
  | nil => rfl
  | cons l ls ih =>
    by_cases hl : inertLine l = true
    · rw [List.filter_cons_of_neg (by simp [hl]), List.foldl_cons,
        processLine_inert ver basedir st l hl]
      exact ih st
    · rw [List.filter_cons_of_pos (by simp [hl]), List.foldl_cons,
        List.foldl_cons]
      exact ih _

/-- Newline-join of a list of lines: a spec-side helper for stating C8,
the inverse of `splitOnNl` on lines containing no newline. -/
def joinNl : List String → String
  | [] => ""
  | [l] => l
  | l :: l2 :: ls => l ++ "\n" ++ joinNl (l2 :: ls)

lemma stringMk_toList (s : String) : String.mk s.toList = s := by
  rcases s with ⟨l⟩
  rfl

lemma splitOnNlAux_no_nl (l acc : List Char) (h : '\n' ∉ l) :
    splitOnNlAux l acc = [String.mk (acc.reverse ++ l)] := by
  induction l generalizing acc with
  | nil => simp [splitOnNlAux]
  | cons c cs ih =>
    have hc : ¬ c = '\n' := fun hc => h (by simp [hc])
    rw [splitOnNlAux, if_neg hc, ih (c :: acc) (fun hx => h (List.mem_cons_of_mem _ hx))]
    simp

lemma splitOnNlAux_append_nl (l₁ rest acc : List Char) (h : '\n' ∉ l₁) :
    splitOnNlAux (l₁ ++ '\n' :: rest) acc =
      String.mk (acc.reverse ++ l₁) :: splitOnNlAux rest [] := by
  induction l₁ generalizing acc with
  | nil => simp [splitOnNlAux]
  | cons c cs ih =>
    have hc : ¬ c = '\n' := fun hc => h (by simp [hc])
    rw [List.cons_append, splitOnNlAux, if_neg hc,
      ih (c :: acc) (fun hx => h (List.mem_cons_of_mem _ hx))]
    simp

lemma splitOnNl_joinNl (lines : List String) (hne : lines ≠ [])
    (h : ∀ l ∈ lines, '\n' ∉ l.toList) :
    splitOnNl (joinNl lines) = lines := by
  induction lines with
  | nil => exact absurd rfl hne
  | cons l ls ih =>
    rcases ls with _ | ⟨l2, ls'⟩
    · unfold splitOnNl joinNl
      rw [splitOnNlAux_no_nl l.toList [] (h l (by simp))]
      simp [stringMk_toList]
    · unfold splitOnNl joinNl
      have htl : (l ++ "\n" ++ joinNl (l2 :: ls')).toList =
          l.toList ++ '\n' :: (joinNl (l2 :: ls')).toList := by
        show (l ++ "\n" ++ joinNl (l2 :: ls')).data =
          l.data ++ '\n' :: (joinNl (l2 :: ls')).data
        rw [String.data_append, String.data_append, List.append_assoc]
        rfl
      rw [htl, splitOnNlAux_append_nl l.toList _ [] (h l (by simp))]
      have ihs : splitOnNl (joinNl (l2 :: ls')) = l2 :: ls' :=
        ih (by simp) (fun x hx => h x (by simp [hx]))
      unfold splitOnNl at ihs
      rw [ihs]
      simp [stringMk_toList]

lemma parseGrubCfg_joinNl (ver : grubVersion) (hver : ver = grubV1 ∨ ver = grubV2)
    (basedir : String) (lines : List String)
    (hnl : ∀ l ∈ lines, '\n' ∉ l.toList) :
    ParseGrubCfg ver (joinNl lines) basedir =
      finalizeState (lines.foldl (processLine ver basedir) initState) := by
  rcases lines with _ | ⟨l, ls⟩
  · rw [parseGrubCfg_valid ver hver]
    have hsplit : splitOnNl (joinNl []) = [""] := rfl
    rw [hsplit]
    have h0 : processLine ver basedir initState "" = initState :=
      processLine_of_fields_nil ver basedir initState "" rfl
    simp [h0]
  · rw [parseGrubCfg_valid ver hver,
      splitOnNl_joinNl (l :: ls) (by simp) hnl]

/-- The in-entry directive fold: what a list of body lines does to the
entry under construction. -/
def entryFold (ver : grubVersion) (basedir : String) (c : BootConfig)
    (lines : List String) : BootConfig :=
  lines.foldl
    (fun c l => applyDirective ver basedir c (fields (trimLeftSpaces l))) c

/-- The name the `menuentry` line gives to its entry: the trailing
tokens rejoined with single spaces. -/
def menuName (menuLine : String) : String :=
  joinSpace (fields (trimLeftSpaces menuLine)).tail

/-- The entry a block (a `menuentry` line plus its body lines) builds:
a fresh config carrying the menu name, folded over the body. -/
def blockEntry (ver : grubVersion) (basedir : String)
    (b : String × List String) : BootConfig :=
  entryFold ver basedir { Name := menuName b.1 } b.2

def blockLines (b : String × List String) : List String := b.1 :: b.2

/-- A well-formed block: its first line opens a menu entry and no body
line does. -/
def wellFormedBlock (b : String × List String) : Prop :=
  (fields (trimLeftSpaces b.1)).head? = some "menuentry" ∧
  ∀ l ∈ b.2, notMenuentryLine l = true

/-- Flushing the pending config, as done on a `menuentry` boundary. -/
def flushList : Option BootConfig → List BootConfig
  | none => []
  | some c => if c.IsValid then [c] else []

instance (b : String × List String) : Decidable (wellFormedBlock b) := by
  unfold wellFormedBlock
  infer_instance

lemma processLine_inEntry (ver : grubVersion) (basedir : String)
    (bcs : List BootConfig) (c : BootConfig) (l : String)
    (h : notMenuentryLine l = true) :
    processLine ver basedir ⟨bcs, true, some c⟩ l =
      ⟨bcs, true,
        some (applyDirective ver basedir c (fields (trimLeftSpaces l)))⟩ := by
  unfold notMenuentryLine at h
  rcases hsl : fields (trimLeftSpaces l) with _ | ⟨tok0, rest⟩
  · simp only [processLine, hsl]
    rfl
  · rw [hsl] at h
    have hme : ¬ tok0 = "menuentry" := by simpa using h
    simp only [processLine, hsl]
    rw [if_neg hme]
    rfl

lemma foldl_inEntry (ver : grubVersion) (basedir : String)
    (body : List String) (bcs : List BootConfig) (c : BootConfig)
    (h : ∀ l ∈ body, notMenuentryLine l = true) :
    body.foldl (processLine ver basedir) ⟨bcs, true, some c⟩ =
      ⟨bcs, true, some (entryFold ver basedir c body)⟩ := by
  induction body generalizing c with
  | nil => rfl
  | cons l ls ih =>
    rw [List.foldl_cons, processLine_inEntry ver basedir bcs c l (h l (by simp)),
      ih _ (fun x hx => h x (by simp [hx]))]
    simp [entryFold]

lemma foldl_block (ver : grubVersion) (basedir : String)
    (b : String × List String) (hb : wellFormedBlock b) (st : ParseState) :
    (blockLines b).foldl (processLine ver basedir) st =
      ⟨st.bootconfigs ++ flushList st.cfg, true,
        some (blockEntry ver basedir b)⟩ := by
  obtain ⟨hhead, hbody⟩ := hb
  rcases hsl : fields (trimLeftSpaces b.1) with _ | ⟨tok0, rest⟩
  · rw [hsl] at hhead
    simp at hhead
  · rw [hsl] at hhead
    simp only [List.head?_cons, Option.some.injEq] at hhead
    subst hhead
    show (b.1 :: b.2).foldl (processLine ver basedir) st = _
    rw [List.foldl_cons]
    have hstep : processLine ver basedir st b.1 =
        ⟨st.bootconfigs ++ flushList st.cfg, true,
          some { Name := joinSpace rest }⟩ := by
      simp only [processLine, hsl]
      rw [if_pos trivial]
      rcases st with ⟨bcs, inme, cfg⟩
      rcases cfg with _ | c
      · simp [flushList]
      · by_cases hv : c.IsValid = true <;> simp [flushList, hv]
    rw [hstep, foldl_inEntry ver basedir b.2 _ _ hbody]
    simp [blockEntry, menuName, hsl]

lemma foldl_blocks (ver : grubVersion) (basedir : String)
    (blocks : List (String × List String)) (bcs : List BootConfig)
    (c : BootConfig)
    (hwf : ∀ b ∈ blocks, wellFormedBlock b)
    (hval : ∀ b ∈ blocks, (blockEntry ver basedir b).IsValid = true)
    (hc : c.IsValid = true) :
    finalizeState (((blocks.map blockLines).flatten).foldl
        (processLine ver basedir) ⟨bcs, true, some c⟩) =
      bcs ++ c :: blocks.map (blockEntry ver basedir) := by
  induction blocks generalizing bcs c with
  | nil => simp [finalizeState, hc]
  | cons b bs ih =>
    rw [List.map_cons, List.flatten_cons, List.foldl_append,
      foldl_block ver basedir b (hwf b (by simp)) _]
    have hflush : flushList (some c) = [c] := by simp [flushList, hc]
    show finalizeState (((bs.map blockLines).flatten).foldl (processLine ver basedir)
      ⟨bcs ++ flushList (some c), true, some (blockEntry ver basedir b)⟩) = _
    rw [hflush, ih (bcs ++ [c]) (blockEntry ver basedir b)
      (fun x hx => hwf x (by simp [hx])) (fun x hx => hval x (by simp [hx]))
      (hval b (by simp))]
    simp

/-- C8: for every valid dialect, (i) deleting every inert line — blank
or whitespace-only lines and unrecognized directive lines — leaves
`ParseGrubCfg`'s output unchanged (equivalently, inserting such lines
anywhere changes nothing, since both sides filter to the same list);
(ii) a run of non-`menuentry` lines before the first menu entry can be
dropped without changing the output; (iii) a config that is the
concatenation of N well-formed menu-entry blocks whose entries are all
valid parses to exactly those N entries, in source order. -/
theorem C8_noise_invariance :
    (∀ (ver : grubVersion) (basedir : String) (lines : List String),
       ver = grubV1 ∨ ver = grubV2 →
       (∀ l ∈ lines, '\n' ∉ l.toList) →
       ParseGrubCfg ver (joinNl lines) basedir =
         ParseGrubCfg ver (joinNl (lines.filter (fun l => !inertLine l)))
           basedir) ∧
    (∀ (ver : grubVersion) (basedir : String) (front rest : List String),
       ver = grubV1 ∨ ver = grubV2 →
       (∀ l ∈ front, '\n' ∉ l.toList) →
       (∀ l ∈ rest, '\n' ∉ l.toList) →
       (∀ l ∈ front, notMenuentryLine l = true) →
       ParseGrubCfg ver (joinNl (front ++ rest)) basedir =
         ParseGrubCfg ver (joinNl rest) basedir) ∧
    (∀ (ver : grubVersion) (basedir : String)
       (blocks : List (String × List String)),
       ver = grubV1 ∨ ver = grubV2 →
       (∀ b ∈ blocks, ∀ l ∈ blockLines b, '\n' ∉ l.toList) →
       (∀ b ∈ blocks, wellFormedBlock b) →
       (∀ b ∈ blocks, (blockEntry ver basedir b).IsValid = true) →
       ParseGrubCfg ver (joinNl ((blocks.map blockLines).flatten)) basedir =
         blocks.map (blockEntry ver basedir)) := by
  refine ⟨?_, ?_, ?_⟩
  · intro ver basedir lines hver hnl
    rw [parseGrubCfg_joinNl ver hver basedir lines hnl,
      parseGrubCfg_joinNl ver hver basedir _
        (fun l hl => hnl l (List.mem_of_mem_filter hl)),
      foldl_filter_inert]
  · intro ver basedir front rest hver hf hr hfm
    have hall : ∀ l ∈ front ++ rest, '\n' ∉ l.toList := by
      intro l hl
      rcases List.mem_append.mp hl with h | h
      exacts [hf l h, hr l h]
    rw [parseGrubCfg_joinNl ver hver basedir _ hall,
      parseGrubCfg_joinNl ver hver basedir rest hr, List.foldl_append]
    have hfront : front.foldl (processLine ver basedir) initState = initState :=
      foldl_outside ver basedir front [] none hfm
    rw [hfront]
  · intro ver basedir blocks hver hnl hwf hval
    rcases blocks with _ | ⟨b, bs⟩
    · simp only [List.map_nil, List.flatten_nil]
      rw [parseGrubCfg_joinNl ver hver basedir [] (by simp)]
      rfl
    · have hlines : ∀ l ∈ (((b :: bs).map blockLines).flatten),
          '\n' ∉ l.toList := by
        intro l hl
        obtain ⟨L, hL, hlL⟩ := List.mem_flatten.mp hl
        obtain ⟨b', hb', rfl⟩ := List.mem_map.mp hL
        exact hnl b' hb' l hlL
      rw [parseGrubCfg_joinNl ver hver basedir _ hlines, List.map_cons,
        List.flatten_cons, List.foldl_append,
        foldl_block ver basedir b (hwf b (by simp)) initState]
      have hmain := foldl_blocks ver basedir bs [] (blockEntry ver basedir b)
        (fun x hx => hwf x (by simp [hx])) (fun x hx => hval x (by simp [hx]))
        (hval b (by simp))
      simpa using hmain

theorem C8_witness :
    ParseGrubCfg grubV2
      (joinNl (([("menuentry A", ["linux /k"]),
        ("menuentry B", ["linux /j"])].map blockLines).flatten)) "/mnt" =
      [("menuentry A", ["linux /k"]), ("menuentry B", ["linux /j"])].map
        (blockEntry grubV2 "/mnt") :=
  C8_noise_invariance.2.2 grubV2 "/mnt"
    [("menuentry A", ["linux /k"]), ("menuentry B", ["linux /j"])]
    (Or.inr rfl) (by decide) (by decide) (by decide)

end SystemBoot
